import Mathlib

/-!
Verification of the in-memory contact manager (`hw_07.py`): field validators
(`Phone`, `Birthday`), contact `Record`s, the `AddressBook` mapping, and the
upcoming-birthday query.  Python strings are modelled as Lean `String`
(code-point semantics match Python `len`/indexing for the inputs at hand),
machine-free date arithmetic is carried out on `Nat`/`Int`, and every fallible
Python operation (a `raise`) is modelled with `Option`, `Except`-style error
codes, or an explicit error component in the returned state.
-/

/-- Gregorian leap-year test, as in Python's `calendar`/`datetime`. -/
def isLeap (y : Nat) : Bool :=
  y % 4 == 0 && (y % 100 != 0 || y % 400 == 0)

/-- Number of days in month `m` (1-12) of year `y`; 0 for out-of-range months. -/
def daysInMonth (m y : Nat) : Nat :=
  match m with
  | 1 => 31 | 2 => if isLeap y then 29 else 28 | 3 => 31 | 4 => 30
  | 5 => 31 | 6 => 30 | 7 => 31 | 8 => 31 | 9 => 30 | 10 => 31
  | 11 => 30 | 12 => 31 | _ => 0

/-- A calendar date, as Python's `datetime.date` triple. -/
structure Date where
  year : Nat
  month : Nat
  day : Nat
deriving DecidableEq

/-- Days-in-year prefix sum: days strictly before month `m` in year `y`. -/
def daysBeforeMonth : Nat → Nat → Nat
  | 0, _ => 0
  | 1, _ => 0
  | m + 1, y => daysBeforeMonth m y + daysInMonth m y

/-- Python `date.toordinal`: day count with 0001-01-01 ↦ 1 (proleptic Gregorian). -/
def Date.toordinal (d : Date) : Nat :=
  365 * (d.year - 1) + (d.year - 1) / 4 - (d.year - 1) / 100 + (d.year - 1) / 400
    + daysBeforeMonth d.month d.year + d.day

/-- Python `date.weekday`: Monday = 0 .. Sunday = 6 (0001-01-01 was a Monday). -/
def Date.weekday (d : Date) : Nat :=
  (d.toordinal + 6) % 7

/-- Python `date` comparison: lexicographic on (year, month, day). -/
def dateLt (a b : Date) : Bool :=
  Nat.blt a.year b.year ||
    (a.year == b.year &&
      (Nat.blt a.month b.month || (a.month == b.month && Nat.blt a.day b.day)))

/-- The day after `d` (proleptic Gregorian successor). -/
def nextDay (d : Date) : Date :=
  if d.day < daysInMonth d.month d.year then ⟨d.year, d.month, d.day + 1⟩
  else if d.month < 12 then ⟨d.year, d.month + 1, 1⟩
  else ⟨d.year + 1, 1, 1⟩

/-- `d` advanced by `n` days. -/
def addDays (d : Date) : Nat → Date
  | 0 => d
  | n + 1 => nextDay (addDays d n)

/-- Python `date + timedelta(days=n)` for `n ≥ 0`: raises `OverflowError`
(modelled as `none`) when the result passes `date.max` = 9999-12-31. -/
def addDaysChecked (d : Date) (n : Nat) : Option Date :=
  if (addDays d n).year ≤ 9999 then some (addDays d n) else none

/-- Python `date.replace(year=y)`: rebuilds the date through the `date`
constructor, which raises `ValueError` (modelled as `none`) unless
`1 ≤ y ≤ 9999`, the month is in range and the day fits the month in year `y`
(e.g. Feb 29 in a non-leap year). -/
def replaceYear (d : Date) (y : Nat) : Option Date :=
  if 1 ≤ y ∧ y ≤ 9999 ∧ 1 ≤ d.month ∧ d.month ≤ 12 ∧ 1 ≤ d.day ∧ d.day ≤ daysInMonth d.month y
  then some ⟨y, d.month, d.day⟩ else none

/-- Numeric value of an ASCII digit character. -/
def charVal (c : Char) : Nat := c.toNat - 48

/-- Value of a digit token read left to right (Python `int` on the group). -/
def tokVal (l : List Char) : Nat := l.foldl (fun a c => 10 * a + charVal c) 0

/-- Split a character list at every `'.'` (used to model how the anchored
`strptime` regex for `"%d.%m.%Y"` forces the two literal dots to delimit the
three digit groups). -/
def splitDots : List Char → List (List Char)
  | [] => [[]]
  | c :: rest =>
    match splitDots rest with
    | [] => []
    | h :: t => if c == '.' then [] :: h :: t else (c :: h) :: t

/-- The day group of CPython `_strptime`: regex `3[01]|[12]\d|0[1-9]|[1-9]`
(one or two digits, value 1-31, "00" excluded).  `\d` is modelled as an ASCII
digit: the claims at hand involve only ASCII input. -/
def dayTok : List Char → Bool
  | [c] => c.isDigit && !(c == '0')
  | [c₁, c₂] =>
    (c₁ == '3' && (c₂ == '0' || c₂ == '1')) ||
      ((c₁ == '1' || c₁ == '2') && c₂.isDigit) ||
      (c₁ == '0' && c₂.isDigit && !(c₂ == '0'))
  | _ => false

/-- The month group of CPython `_strptime`: regex `1[0-2]|0[1-9]|[1-9]`
(one or two digits, value 1-12, "00" excluded). -/
def monthTok : List Char → Bool
  | [c] => c.isDigit && !(c == '0')
  | [c₁, c₂] =>
    (c₁ == '1' && (c₂ == '0' || c₂ == '1' || c₂ == '2')) ||
      (c₁ == '0' && c₂.isDigit && !(c₂ == '0'))
  | _ => false

/-- The year group of CPython `_strptime` for `%Y`: exactly four digits. -/
def yearTok (l : List Char) : Bool :=
  l.length == 4 && l.all Char.isDigit

/-- The `datetime` constructor check run after the groups are read:
`1 ≤ year ≤ 9999` (`MINYEAR`/`MAXYEAR`), month in range, day fits the month
(`ValueError`, i.e. `none`, otherwise — this is what rejects `31.02.2024`). -/
def mkDatetime (y m d : Nat) : Option Date :=
  if 1 ≤ y ∧ y ≤ 9999 ∧ 1 ≤ m ∧ m ≤ 12 ∧ 1 ≤ d ∧ d ≤ daysInMonth m y
  then some ⟨y, m, d⟩ else none

/-- `datetime.strptime(s, "%d.%m.%Y")` (then `.date()`): the anchored regex
splits `s` at the two literal dots into a day, month and four-digit year group
(no other dots may occur), and the `datetime` constructor validates the
resulting triple. -/
def parseDMY (s : String) : Option Date :=
  match splitDots s.data with
  | [d, m, y] =>
    if dayTok d && monthTok m && yearTok y then mkDatetime (tokVal y) (tokVal m) (tokVal d)
    else none
  | _ => none

/-- Python `str.isdigit` on one character: true for characters whose Unicode
`Numeric_Type` is `Digit` or `Decimal`.  Modelled by the ASCII digits together
with the digit blocks relevant here (superscripts/subscripts, Arabic-Indic,
Devanagari, Bengali, fullwidth digits); characters outside these blocks are
treated as non-digits. -/
def pyCharIsDigit (c : Char) : Bool :=
  c.isDigit ||
    decide (c.toNat = 0xB2 ∨ c.toNat = 0xB3 ∨ c.toNat = 0xB9) ||
    decide (0x2070 ≤ c.toNat ∧ c.toNat ≤ 0x2079) ||
    decide (0x2080 ≤ c.toNat ∧ c.toNat ≤ 0x2089) ||
    decide (0x660 ≤ c.toNat ∧ c.toNat ≤ 0x669) ||
    decide (0x6F0 ≤ c.toNat ∧ c.toNat ≤ 0x6F9) ||
    decide (0x966 ≤ c.toNat ∧ c.toNat ≤ 0x96F) ||
    decide (0x9E6 ≤ c.toNat ∧ c.toNat ≤ 0x9EF) ||
    decide (0xFF10 ≤ c.toNat ∧ c.toNat ≤ 0xFF19)

/-- Python `str.isdigit`: non-empty and every character is a digit. -/
def pyIsdigit (s : String) : Bool :=
  !s.data.isEmpty && s.data.all pyCharIsDigit

/-- The two `ValueError` flavours the spec distinguishes: a field validator
rejection (`InvalidFormat`) and a missing phone/record (`NotFound`). -/
inductive PyError where
  | invalidFormat
  | notFound
deriving DecidableEq

/-- `Name(Field)`: a bare wrapper around the string value, no validation. -/
structure Name where
  value : String
deriving DecidableEq

/-- `Phone(Field)`: wrapper around the validated string value. -/
structure Phone where
  value : String
deriving DecidableEq

/-- `Phone.__init__`: raises unless `value.isdigit()` and `len(value) == 10`. -/
def Phone.init (value : String) : Option Phone :=
  if !pyIsdigit value || !(value.length == 10) then none else some ⟨value⟩

/-- `Birthday(Field)`: wrapper around the validated string value. -/
structure Birthday where
  value : String
deriving DecidableEq

/-- `Birthday.__init__`: raises unless `strptime(value, "%d.%m.%Y")` succeeds. -/
def Birthday.init (value : String) : Option Birthday :=
  match parseDMY value with
  | some _ => some ⟨value⟩
  | none => none

/-- A contact `Record`: name, ordered phone list, optional birthday. -/
structure Record where
  name : Name
  phones : List Phone
  birthday : Option Birthday
deriving DecidableEq

/-- `Record.__init__(name)`: never fails; wraps the name (no validation),
starts with no phones and no birthday. -/
def Record.init (name : String) : Record :=
  { name := ⟨name⟩, phones := [], birthday := none }

/-- The `for`-loop of `Record.find_phone`: first phone whose value equals `phone`. -/
def findPhoneIn : List Phone → String → Option Phone
  | [], _ => none
  | p :: ps, s => if p.value = s then some p else findPhoneIn ps s

/-- `Record.find_phone`. -/
def Record.find_phone (r : Record) (phone : String) : Option Phone :=
  findPhoneIn r.phones phone

/-- `Record.add_phone`: validates and appends; on a raise the record is
returned unchanged together with the error. -/
def Record.add_phone (r : Record) (phone : String) : Record × Option PyError :=
  match Phone.init phone with
  | some p => ({ r with phones := r.phones ++ [p] }, none)
  | none => (r, some PyError.invalidFormat)

/-- `Record.remove_phone`: looks the phone up, removes the first value match
(`list.remove` on the object `find_phone` returned), raises `NotFound` if absent. -/
def Record.remove_phone (r : Record) (phone : String) : Record × Option PyError :=
  match Record.find_phone r phone with
  | some _ => ({ r with phones := r.phones.eraseP (fun q => q.value == phone) }, none)
  | none => (r, some PyError.notFound)

/-- `Record.edit_phone`: finds `old_phone` (raises `NotFound` if absent), then
constructs the new `Phone` (an invalid `new_phone` raises before any mutation),
then removes the found phone and appends the new one. -/
def Record.edit_phone (r : Record) (old_phone new_phone : String) : Record × Option PyError :=
  match Record.find_phone r old_phone with
  | some _ =>
    match Phone.init new_phone with
    | some p =>
      ({ r with phones := r.phones.eraseP (fun q => q.value == old_phone) ++ [p] }, none)
    | none => (r, some PyError.invalidFormat)
  | none => (r, some PyError.notFound)

/-- `Record.add_birthday`: validates and unconditionally replaces. -/
def Record.add_birthday (r : Record) (birthday : String) : Record × Option PyError :=
  match Birthday.init birthday with
  | some b => ({ r with birthday := some b }, none)
  | none => (r, some PyError.invalidFormat)

/-- `Record.__str__`. -/
def Record.describe (r : Record) : String :=
  let phones :=
    if r.phones.isEmpty then "No phones"
    else String.intercalate "; " (r.phones.map Phone.value)
  let bday :=
    match r.birthday with
    | some b => b.value
    | none => "No birthday"
  "Contact name: " ++ r.name.value ++ ", phones: " ++ phones ++ ", birthday: " ++ bday

/-- `AddressBook(UserDict)`: the underlying `dict` is modelled as an
insertion-ordered association list; the dict invariant (at most one entry per
key) is the `Nodup` hypothesis of the theorems below. -/
structure AddressBook where
  records : List (String × Record)
deriving DecidableEq

/-- Python `dict` assignment `data[k] = v`: overwrite in place if the key is
present (keeping its position), otherwise append a new entry. -/
def dictInsert (l : List (String × Record)) (k : String) (v : Record) :
    List (String × Record) :=
  if l.any (fun pr => pr.1 == k) then
    l.map (fun pr => if pr.1 == k then (k, v) else pr)
  else l ++ [(k, v)]

/-- `AddressBook.add_record`: `self.data[record.name.value] = record`. -/
def AddressBook.add_record (b : AddressBook) (r : Record) : AddressBook :=
  ⟨dictInsert b.records r.name.value r⟩

/-- `AddressBook.find`: `self.data.get(name, None)`. -/
def AddressBook.find (b : AddressBook) (name : String) : Option Record :=
  (b.records.find? (fun pr => pr.1 == name)).map Prod.snd

/-- `AddressBook.delete`: `if name in self.data: del self.data[name]`. -/
def AddressBook.delete (b : AddressBook) (name : String) : AddressBook :=
  if b.records.any (fun pr => pr.1 == name) then
    ⟨b.records.eraseP (fun pr => pr.1 == name)⟩
  else b

/-- `AddressBook.__str__`: newline-joined `str(record)` over the values. -/
def AddressBook.describeAll (b : AddressBook) : String :=
  String.intercalate "\n" (b.records.map (fun pr => Record.describe pr.2))

/-- One entry of the `get_upcoming_birthdays` result: the dict
`{"name": ..., "birthday": ...}` — the `"birthday"` value is the
congratulation date (serialized in the code with `strftime("%d.%m.%Y")`;
kept here as the `Date` it formats). -/
structure UpcomingEntry where
  name : String
  birthday : Date
deriving DecidableEq

/-- `bday_this_year` computation of `get_upcoming_birthdays`:
`bday.replace(year=today.year)`, advanced to `today.year + 1` when it is
before `today`; `none` models the `ValueError` either `replace` can raise. -/
def nextOccurrence (bd today : Date) : Option Date :=
  match replaceYear bd today.year with
  | some d => if dateLt d today then replaceYear d (today.year + 1) else some d
  | none => none

/-- `days_until` of `get_upcoming_birthdays` (Python `timedelta.days`). -/
def daysUntil (d today : Date) : Int :=
  (d.toordinal : Int) - (today.toordinal : Int)

/-- The weekend shift of `get_upcoming_birthdays`: a date whose weekday is
Saturday (5) or Sunday (6) moves forward by `7 - weekday` days to the next
Monday; `none` models the overflow a `timedelta` addition can raise. -/
def congratDate (d : Date) : Option Date :=
  if d.weekday ≥ 5 then addDaysChecked d (7 - d.weekday) else some d

/-- One loop iteration of `get_upcoming_birthdays` on a record: the outer
`none` is a `raise` escaping the whole call, `some none` skips the record,
`some (some e)` appends entry `e`. -/
def upcomingEntry (today : Date) (r : Record) : Option (Option UpcomingEntry) :=
  match r.birthday with
  | none => some none
  | some b =>
    match parseDMY b.value with
    | none => none
    | some bd =>
      match nextOccurrence bd today with
      | none => none
      | some occ =>
        if 0 ≤ daysUntil occ today ∧ daysUntil occ today ≤ 7 then
          match congratDate occ with
          | none => none
          | some c => some (some ⟨r.name.value, c⟩)
        else some none

/-- The record loop of `get_upcoming_birthdays` over `self.data.values()` in
insertion order; a raise anywhere aborts the whole call. -/
def upcomingLoop (today : Date) : List (String × Record) → Option (List UpcomingEntry)
  | [] => some []
  | pr :: rest =>
    match upcomingEntry today pr.2 with
    | none => none
    | some e? =>
      match upcomingLoop today rest with
      | none => none
      | some res =>
        some (match e? with
              | none => res
              | some e => e :: res)

/-- `AddressBook.get_upcoming_birthdays`.  The code reads `today` from the
clock (`datetime.today().date()`); it is passed explicitly here. -/
def AddressBook.get_upcoming_birthdays (b : AddressBook) (today : Date) :
    Option (List UpcomingEntry) :=
  upcomingLoop today b.records

/-- Spec-side predicate for claim C3 (from the spec's words, for comparison
with `Phone.init`): exactly 10 ASCII decimal digits. -/
def isTenAsciiDigits (s : String) : Bool :=
  s.length == 10 && s.data.all Char.isDigit

/-- Spec-side predicate for claim C4 (from the spec's words, for comparison
with `Birthday.init`): strict `DD.MM.YYYY` — two-digit day, two-digit month,
four-digit year, dot-separated, forming a real Gregorian date. -/
def strictDDMMYYYY (s : String) : Bool :=
  match s.data with
  | [d₁, d₂, '.', m₁, m₂, '.', y₁, y₂, y₃, y₄] =>
    [d₁, d₂, m₁, m₂, y₁, y₂, y₃, y₄].all Char.isDigit &&
      (mkDatetime (tokVal [y₁, y₂, y₃, y₄]) (tokVal [m₁, m₂]) (tokVal [d₁, d₂])).isSome
  | _ => false

theorem findPhoneIn_eq_none (l : List Phone) (s : String) (h : ∀ p ∈ l, p.value ≠ s) :
    findPhoneIn l s = none := by
  induction l with
  | nil => rfl
  | cons p ps ih =>
    have hp : p.value ≠ s := h p (List.mem_cons_self p ps)
    simp only [findPhoneIn, if_neg hp]
    exact ih fun q hq => h q (List.mem_cons_of_mem p hq)

theorem findPhoneIn_first (l₁ : List Phone) (q : Phone) (l₂ : List Phone) (s : String)
    (hq : q.value = s) (h : ∀ x ∈ l₁, x.value ≠ s) :
    findPhoneIn (l₁ ++ q :: l₂) s = some q := by
  induction l₁ with
  | nil => simp [findPhoneIn, hq]
  | cons p ps ih =>
    have hp : p.value ≠ s := h p (List.mem_cons_self p ps)
    simp only [List.cons_append, findPhoneIn, if_neg hp]
    exact ih fun x hx => h x (List.mem_cons_of_mem p hx)

theorem erasePValue_first (l₁ : List Phone) (q : Phone) (l₂ : List Phone) (s : String)
    (hq : q.value = s) (h : ∀ x ∈ l₁, x.value ≠ s) :
    (l₁ ++ q :: l₂).eraseP (fun x => x.value == s) = l₁ ++ l₂ := by
  rw [List.eraseP_append_right]
  · rw [List.eraseP_cons_of_pos]
    exact beq_iff_eq.mpr hq
  · intro b hb
    exact fun hbeq => h b hb (beq_iff_eq.mp hbeq)

theorem upcomingLoop_eq_none_of_mem (today : Date) (l : List (String × Record))
    (pr : String × Record) (hmem : pr ∈ l) (h : upcomingEntry today pr.2 = none) :
    upcomingLoop today l = none := by
  induction l with
  | nil => cases hmem
  | cons hd tl ih =>
    rcases List.mem_cons.mp hmem with rfl | hmem'
    · simp [upcomingLoop, h]
    · cases hx : upcomingEntry today hd.2 with
      | none => simp [upcomingLoop, hx]
      | some e? => simp [upcomingLoop, hx, ih hmem']

/-- C10: a validly constructed book may hold a birthday on 29 February (a leap
year); when the query year is not leap, `bday.replace(year=today.year)` raises
`ValueError` and `get_upcoming_birthdays` aborts (returns no list) instead of
producing a result — the operation is not total over its stated domain. -/
theorem feb29_nonleap_raises (b : AddressBook) (today : Date) (pr : String × Record)
    (bd : Birthday) (d : Date) (hmem : pr ∈ b.records) (hb : pr.2.birthday = some bd)
    (hp : parseDMY bd.value = some d) (hm : d.month = 2) (hd : d.day = 29)
    (hleap : isLeap today.year = false) :
    AddressBook.get_upcoming_birthdays b today = none := by
  apply upcomingLoop_eq_none_of_mem today b.records pr hmem
  have hrep : replaceYear d today.year = none := by
    have hcond : ¬(1 ≤ today.year ∧ today.year ≤ 9999 ∧ 1 ≤ d.month ∧ d.month ≤ 12 ∧
        1 ≤ d.day ∧ d.day ≤ daysInMonth d.month today.year) := by
      rw [hm, hd]
      simp [daysInMonth, hleap]
    simp [replaceYear, hcond]
  simp [upcomingEntry, hb, hp, nextOccurrence, hrep]

theorem feb29_nonleap_raises_witness :
    AddressBook.get_upcoming_birthdays
        ⟨[("X", { name := ⟨"X"⟩, phones := [], birthday := some ⟨"29.02.2024"⟩ })]⟩
        ⟨2025, 1, 1⟩ = none :=
  feb29_nonleap_raises
    ⟨[("X", { name := ⟨"X"⟩, phones := [], birthday := some ⟨"29.02.2024"⟩ })]⟩
    ⟨2025, 1, 1⟩ ("X", { name := ⟨"X"⟩, phones := [], birthday := some ⟨"29.02.2024"⟩ })
    ⟨"29.02.2024"⟩ ⟨2024, 2, 29⟩ (by decide) rfl (by decide) rfl rfl (by decide)

/-- C9 counterexample: the `Record` constructor does not fail on the empty
name — `Record("")` returns an ordinary record wrapping the empty string. -/
theorem record_init_empty_succeeds :
    Record.init "" = { name := ⟨""⟩, phones := [], birthday := none } := rfl

/-- C9 amended: the `Record` constructor never fails; for every name string
(the empty string included) it produces a Record with that name, an empty
phone list, and no birthday. -/
theorem record_init_spec (name : String) :
    (Record.init name).name.value = name ∧ (Record.init name).phones = [] ∧
      (Record.init name).birthday = none :=
  ⟨rfl, rfl, rfl⟩

/-- C5: `edit_phone` is all-or-nothing — absent `old_phone` fails with
`NotFound` leaving the record unchanged; present `old_phone` with an invalid
`new_phone` fails with `InvalidFormat` leaving the record unchanged (the new
phone is validated before any removal); any failure leaves the record exactly
as it was; and on success the first phone equal to `old_phone` is removed and
the new one appended. -/
theorem edit_phone_all_or_nothing (r : Record) (old_phone new_phone : String) :
    (Record.find_phone r old_phone = none →
      Record.edit_phone r old_phone new_phone = (r, some PyError.notFound)) ∧
    ((Record.find_phone r old_phone).isSome → Phone.init new_phone = none →
      Record.edit_phone r old_phone new_phone = (r, some PyError.invalidFormat)) ∧
    ((Record.edit_phone r old_phone new_phone).2 ≠ none →
      (Record.edit_phone r old_phone new_phone).1 = r) ∧
    (∀ l₁ q l₂ p, r.phones = l₁ ++ q :: l₂ → q.value = old_phone →
      (∀ x ∈ l₁, x.value ≠ old_phone) → Phone.init new_phone = some p →
      Record.edit_phone r old_phone new_phone =
        ({ r with phones := l₁ ++ (l₂ ++ [p]) }, none)) := by
  refine ⟨?_, ?_, ?_, ?_⟩
  · intro h
    simp [Record.edit_phone, h]
  · intro h hinit
    cases hφ : Record.find_phone r old_phone with
    | none => rw [hφ] at h; cases h
    | some q => simp [Record.edit_phone, hφ, hinit]
  · intro h
    cases hφ : Record.find_phone r old_phone with
    | none => simp [Record.edit_phone, hφ]
    | some q =>
      cases hinit : Phone.init new_phone with
      | none => simp [Record.edit_phone, hφ, hinit]
      | some p => simp [Record.edit_phone, hφ, hinit] at h
  · intro l₁ q l₂ p hsplit hval hfirst hinit
    have hφ : Record.find_phone r old_phone = some q := by
      rw [Record.find_phone, hsplit]
      exact findPhoneIn_first l₁ q l₂ old_phone hval hfirst
    have herase : r.phones.eraseP (fun x => x.value == old_phone) = l₁ ++ l₂ := by
      rw [hsplit]
      exact erasePValue_first l₁ q l₂ old_phone hval hfirst
    simp [Record.edit_phone, hφ, hinit, herase]

theorem edit_phone_all_or_nothing_witness :
    Record.edit_phone
        { name := ⟨"A"⟩, phones := [⟨"1111111111"⟩, ⟨"2222222222"⟩], birthday := none }
        "1111111111" "12" =
      ({ name := ⟨"A"⟩, phones := [⟨"1111111111"⟩, ⟨"2222222222"⟩], birthday := none },
        some PyError.invalidFormat) :=
  (edit_phone_all_or_nothing
      { name := ⟨"A"⟩, phones := [⟨"1111111111"⟩, ⟨"2222222222"⟩], birthday := none }
      "1111111111" "12").2.1 (by decide) (by decide)

/-- C8: `find_phone` returns the first phone whose value equals `s` exactly
(`none` when no phone matches), and `remove_phone` removes exactly that first
match, leaving earlier non-matches and later duplicates in place in order,
failing with `NotFound` when no phone equals `s`. -/
theorem find_remove_phone_first_match (r : Record) (s : String) :
    ((∀ p ∈ r.phones, p.value ≠ s) →
      Record.find_phone r s = none ∧
        Record.remove_phone r s = (r, some PyError.notFound)) ∧
    (∀ l₁ q l₂, r.phones = l₁ ++ q :: l₂ → q.value = s → (∀ x ∈ l₁, x.value ≠ s) →
      Record.find_phone r s = some q ∧
        Record.remove_phone r s = ({ r with phones := l₁ ++ l₂ }, none)) := by
  constructor
  · intro h
    have hφ : Record.find_phone r s = none := findPhoneIn_eq_none r.phones s h
    exact ⟨hφ, by simp [Record.remove_phone, hφ]⟩
  · intro l₁ q l₂ hsplit hval hfirst
    have hφ : Record.find_phone r s = some q := by
      rw [Record.find_phone, hsplit]
      exact findPhoneIn_first l₁ q l₂ s hval hfirst
    refine ⟨hφ, ?_⟩
    have herase : r.phones.eraseP (fun x => x.value == s) = l₁ ++ l₂ := by
      rw [hsplit]
      exact erasePValue_first l₁ q l₂ s hval hfirst
    simp [Record.remove_phone, hφ, herase]

theorem find_remove_phone_first_match_witness :
    Record.find_phone
        { name := ⟨"A"⟩,
          phones := [⟨"1111111111"⟩, ⟨"2222222222"⟩, ⟨"1111111111"⟩],
          birthday := none } "1111111111" = some ⟨"1111111111"⟩ ∧
      Record.remove_phone
          { name := ⟨"A"⟩,
            phones := [⟨"1111111111"⟩, ⟨"2222222222"⟩, ⟨"1111111111"⟩],
            birthday := none } "1111111111" =
        ({ name := ⟨"A"⟩, phones := [⟨"2222222222"⟩, ⟨"1111111111"⟩],
           birthday := none }, none) :=
  (find_remove_phone_first_match
      { name := ⟨"A"⟩,
        phones := [⟨"1111111111"⟩, ⟨"2222222222"⟩, ⟨"1111111111"⟩],
        birthday := none } "1111111111").2
    [] ⟨"1111111111"⟩ [⟨"2222222222"⟩, ⟨"1111111111"⟩] rfl rfl (by simp)

theorem dictInsert_keys_present (l : List (String × Record)) (k : String) (v : Record)
    (h : l.any (fun pr => pr.1 == k) = true) :
    (dictInsert l k v).map Prod.fst = l.map Prod.fst := by
  simp only [dictInsert, h, if_true]
  rw [List.map_map]
  apply List.map_congr_left
  intro pr _
  by_cases hk : pr.1 = k
  · simp [hk]
  · simp [hk]

theorem dictInsert_find_present (l : List (String × Record)) (k : String) (v : Record)
    (h : l.any (fun pr => pr.1 == k) = true) :
    (l.map (fun pr => if pr.1 == k then (k, v) else pr)).find? (fun pr => pr.1 == k) =
      some (k, v) := by
  induction l with
  | nil => cases h
  | cons hd tl ih =>
    by_cases hh : hd.1 = k
    · simp [hh]
    · have hb : (hd.1 == k) = false := beq_eq_false_iff_ne.mpr hh
      have htl : tl.any (fun pr => pr.1 == k) = true := by
        simp only [List.any_cons, hb, Bool.false_or] at h
        exact h
      simp only [List.map_cons, hb, Bool.false_eq_true, if_false, List.find?_cons, hb]
      exact ih htl

theorem erasePKey_eq_filter (l : List (String × Record)) (n : String)
    (hnd : (l.map Prod.fst).Nodup) :
    l.eraseP (fun pr => pr.1 == n) = l.filter (fun pr => !(pr.1 == n)) := by
  induction l with
  | nil => rfl
  | cons hd tl ih =>
    rw [List.map_cons, List.nodup_cons] at hnd
    by_cases hh : hd.1 = n
    · have hb : (hd.1 == n) = true := beq_iff_eq.mpr hh
      have htl : tl.filter (fun pr => !(pr.1 == n)) = tl := by
        rw [List.filter_eq_self]
        intro pr hpr
        have hne : pr.1 ≠ n := by
          intro hcontra
          exact hnd.1 (hh ▸ hcontra ▸ List.mem_map_of_mem Prod.fst hpr)
        simp [hne]
      simp [List.eraseP_cons, List.filter_cons, hb, htl]
    · have hb : (hd.1 == n) = false := beq_eq_false_iff_ne.mpr hh
      simp [List.eraseP_cons, List.filter_cons, hb, ih hnd.2]

theorem find?_filter_ne (l : List (String × Record)) (n m : String) (hne : m ≠ n) :
    (l.filter (fun pr => !(pr.1 == n))).find? (fun pr => pr.1 == m) =
      l.find? (fun pr => pr.1 == m) := by
  induction l with
  | nil => rfl
  | cons hd tl ih =>
    by_cases hm : hd.1 = m
    · have hn : (hd.1 == n) = false := beq_eq_false_iff_ne.mpr (hm ▸ hne)
      simp [List.filter_cons, hn, List.find?_cons, beq_iff_eq.mpr hm]
    · have hmb : (hd.1 == m) = false := beq_eq_false_iff_ne.mpr hm
      by_cases hn : hd.1 = n
      · simp [List.filter_cons, beq_iff_eq.mpr hn, List.find?_cons, hmb, ih]
      · simp [List.filter_cons, beq_eq_false_iff_ne.mpr hn, List.find?_cons, hmb, ih]

/-- C6: the address book keeps at most one record per name — `add_record` and
`delete` preserve key uniqueness; `add_record` keyed by the record's name
overwrites the existing mapping entry when the name is present (the lookup now
yields the new record and no key is added), and appends a fresh entry when the
name is absent. -/
theorem add_record_overwrites (b : AddressBook) (r : Record)
    (hnd : (b.records.map Prod.fst).Nodup) :
    ((AddressBook.add_record b r).records.map Prod.fst).Nodup ∧
    AddressBook.find (AddressBook.add_record b r) r.name.value = some r ∧
    (AddressBook.find b r.name.value = none →
      (AddressBook.add_record b r).records = b.records ++ [(r.name.value, r)]) ∧
    ((AddressBook.find b r.name.value).isSome →
      (AddressBook.add_record b r).records.map Prod.fst = b.records.map Prod.fst) ∧
    (∀ n, ((AddressBook.delete b n).records.map Prod.fst).Nodup) := by
  have hdel : ∀ n, ((AddressBook.delete b n).records.map Prod.fst).Nodup := by
    intro n
    rw [AddressBook.delete]
    by_cases hany : b.records.any (fun pr => pr.1 == n) = true
    · simp only [hany, if_true]
      exact hnd.sublist (List.Sublist.map Prod.fst (List.eraseP_sublist b.records))
    · rw [if_neg (by simp [hany])]
      exact hnd
  by_cases hany : b.records.any (fun pr => pr.1 == r.name.value) = true
  · have hkeys := dictInsert_keys_present b.records r.name.value r hany
    refine ⟨by rw [AddressBook.add_record, hkeys]; exact hnd, ?_, ?_, fun _ => hkeys, hdel⟩
    · rw [AddressBook.find, AddressBook.add_record]
      simp only [dictInsert, hany, if_true]
      rw [dictInsert_find_present b.records r.name.value r hany]
      rfl
    · intro hnone
      rw [AddressBook.find] at hnone
      rw [List.any_eq_true] at hany
      obtain ⟨pr, hpr, hb⟩ := hany
      rw [Option.map_eq_none', List.find?_eq_none] at hnone
      exact absurd hb (hnone pr hpr)
  · have hanyf : b.records.any (fun pr => pr.1 == r.name.value) = false :=
      Bool.not_eq_true _ ▸ hany
    rw [List.any_eq_false] at hanyf
    have happend : (AddressBook.add_record b r).records = b.records ++ [(r.name.value, r)] := by
      rw [AddressBook.add_record, dictInsert, if_neg (by simp [hany])]
    have hnotmem : r.name.value ∉ b.records.map Prod.fst := by
      intro hmem
      rw [List.mem_map] at hmem
      obtain ⟨pr, hpr, hfst⟩ := hmem
      exact hanyf pr hpr (beq_iff_eq.mpr hfst)
    have hfail : b.records.find? (fun pr => pr.1 == r.name.value) = none := by
      rw [List.find?_eq_none]
      intro pr hpr
      exact hanyf pr hpr
    refine ⟨?_, ?_, fun _ => happend, ?_, hdel⟩
    · rw [happend, List.map_append]
      refine List.Nodup.append hnd (List.nodup_singleton _) ?_
      intro a ha hb
      simp only [List.map_cons, List.map_nil, List.mem_singleton] at hb
      exact hnotmem (hb ▸ ha)
    · rw [AddressBook.find, happend, List.find?_append, hfail]
      simp
    · intro hsome
      rw [AddressBook.find, hfail] at hsome
      cases hsome

theorem add_record_overwrites_witness :
    AddressBook.find
        (AddressBook.add_record
          ⟨[("A", { name := ⟨"A"⟩, phones := [⟨"1111111111"⟩], birthday := none })]⟩
          { name := ⟨"A"⟩, phones := [], birthday := none }) "A" =
      some { name := ⟨"A"⟩, phones := [], birthday := none } :=
  (add_record_overwrites
      ⟨[("A", { name := ⟨"A"⟩, phones := [⟨"1111111111"⟩], birthday := none })]⟩
      { name := ⟨"A"⟩, phones := [], birthday := none } (by decide)).2.1

/-- C7: `delete(name)` removes the entry with that name when present — the
subsequent `find` returns `none`, every other name is unaffected, and the
rendered output is that of the book with the entry filtered out — while
deleting an absent name is a no-op that raises no error and leaves the book
unchanged. -/
theorem delete_removes_or_noop (b : AddressBook) (n : String)
    (hnd : (b.records.map Prod.fst).Nodup) :
    AddressBook.find (AddressBook.delete b n) n = none ∧
    (∀ m, m ≠ n → AddressBook.find (AddressBook.delete b n) m = AddressBook.find b m) ∧
    (AddressBook.find b n = none → AddressBook.delete b n = b) ∧
    (AddressBook.delete b n).records = b.records.filter (fun pr => !(pr.1 == n)) ∧
    AddressBook.describeAll (AddressBook.delete b n) =
      String.intercalate "\n"
        ((b.records.filter (fun pr => !(pr.1 == n))).map (fun pr => Record.describe pr.2)) := by
  have hrecs : (AddressBook.delete b n).records = b.records.filter (fun pr => !(pr.1 == n)) := by
    rw [AddressBook.delete]
    by_cases hany : b.records.any (fun pr => pr.1 == n) = true
    · simp only [hany, if_true]
      exact erasePKey_eq_filter b.records n hnd
    · have hanyf : b.records.any (fun pr => pr.1 == n) = false := Bool.not_eq_true _ ▸ hany
      rw [List.any_eq_false] at hanyf
      have hfilter : b.records.filter (fun pr => !(pr.1 == n)) = b.records := by
        rw [List.filter_eq_self]
        intro pr hpr
        simp [hanyf pr hpr]
      rw [if_neg (by simp [hany]), hfilter]
  refine ⟨?_, ?_, ?_, hrecs, ?_⟩
  · rw [AddressBook.find, hrecs, List.find?_eq_none.mpr]
    · rfl
    · intro pr hpr
      rw [List.mem_filter] at hpr
      simpa using hpr.2
  · intro m hm
    rw [AddressBook.find, AddressBook.find, hrecs, find?_filter_ne b.records n m hm]
  · intro hnone
    rw [AddressBook.find, Option.map_eq_none', List.find?_eq_none] at hnone
    rw [AddressBook.delete, if_neg]
    rw [List.any_eq_true]
    rintro ⟨pr, hpr, hb⟩
    exact hnone pr hpr hb
  · rw [AddressBook.describeAll, hrecs]

theorem delete_removes_or_noop_witness :
    AddressBook.find
        (AddressBook.delete
          ⟨[("A", { name := ⟨"A"⟩, phones := [], birthday := none }),
            ("B", { name := ⟨"B"⟩, phones := [], birthday := none })]⟩ "A") "A" = none ∧
      AddressBook.delete
          ⟨[("A", { name := ⟨"A"⟩, phones := [], birthday := none }),
            ("B", { name := ⟨"B"⟩, phones := [], birthday := none })]⟩ "C" =
        ⟨[("A", { name := ⟨"A"⟩, phones := [], birthday := none }),
          ("B", { name := ⟨"B"⟩, phones := [], birthday := none })]⟩ :=
  ⟨(delete_removes_or_noop
      ⟨[("A", { name := ⟨"A"⟩, phones := [], birthday := none }),
        ("B", { name := ⟨"B"⟩, phones := [], birthday := none })]⟩ "A" (by decide)).1,
   (delete_removes_or_noop
      ⟨[("A", { name := ⟨"A"⟩, phones := [], birthday := none }),
        ("B", { name := ⟨"B"⟩, phones := [], birthday := none })]⟩ "C" (by decide)).2.2.1
     (by decide)⟩

theorem pyCharIsDigit_of_isDigit (c : Char) (h : c.isDigit = true) :
    pyCharIsDigit c = true := by
  simp [pyCharIsDigit, h]

/-- C3 counterexample: Python `str.isdigit` is not limited to ASCII digits —
the 10-character string of superscript-two characters is accepted by the
`Phone` constructor although none of its characters is an ASCII decimal digit,
refuting "succeeds if and only if s consists of exactly 10 ASCII decimal digit
characters". -/
theorem phone_accepts_nonascii_digits :
    (Phone.init "²²²²²²²²²²").isSome = true ∧ isTenAsciiDigits "²²²²²²²²²²" = false := by
  constructor
  · rfl
  · rfl

/-- C3 amended: the `Phone` constructor succeeds iff the string has exactly 10
characters, all of them digits in Python's `str.isdigit` sense (which includes
non-ASCII digit characters); on success the stored value round-trips, and every
string of exactly 10 ASCII decimal digits does succeed. -/
theorem phone_init_iff (s : String) :
    ((Phone.init s).isSome = true ↔ s.length = 10 ∧ s.data.all pyCharIsDigit = true) ∧
    (∀ p, Phone.init s = some p → p.value = s) ∧
    (isTenAsciiDigits s = true → (Phone.init s).isSome = true) := by
  have hlen : s.length = s.data.length := rfl
  refine ⟨?_, ?_, ?_⟩
  · constructor
    · intro h
      rw [Phone.init] at h
      by_cases hc : (!pyIsdigit s || !(s.length == 10)) = true
      · rw [if_pos hc] at h
        cases h
      · simp only [Bool.or_eq_true, Bool.not_eq_true'] at hc
        push_neg at hc
        have h10 : s.length = 10 := by simpa using hc.2
        have hdig : pyIsdigit s = true := by simpa using hc.1
        rw [pyIsdigit, Bool.and_eq_true] at hdig
        exact ⟨h10, hdig.2⟩
    · rintro ⟨h10, hall⟩
      have hne : s.data.isEmpty = false := by
        cases hd : s.data with
        | nil => rw [hlen, hd] at h10; cases h10
        | cons c cs => rfl
      rw [Phone.init, if_neg]
      · rfl
      · simp [pyIsdigit, hne, hall, h10]
  · intro p hp
    rw [Phone.init] at hp
    by_cases hc : (!pyIsdigit s || !(s.length == 10)) = true
    · rw [if_pos hc] at hp
      cases hp
    · rw [if_neg hc] at hp
      cases hp
      rfl
  · intro h
    rw [isTenAsciiDigits, Bool.and_eq_true] at h
    have h10 : s.length = 10 := by simpa using h.1
    have hall : s.data.all pyCharIsDigit = true := by
      rw [List.all_eq_true]
      intro c hc
      exact pyCharIsDigit_of_isDigit c (List.all_eq_true.mp h.2 c hc)
    have hne : s.data.isEmpty = false := by
      cases hd : s.data with
      | nil => rw [hlen, hd] at h10; cases h10
      | cons c cs => rfl
    rw [Phone.init, if_neg]
    · rfl
    · simp [pyIsdigit, hne, hall, h10]

theorem phone_init_iff_witness :
    (Phone.init "0123456789").isSome = true :=
  (phone_init_iff "0123456789").2.2 (by decide)

theorem upcomingEntry_some_inv (today : Date) (r : Record) (e : UpcomingEntry)
    (h : upcomingEntry today r = some (some e)) :
    ∃ bday bd occ, r.birthday = some bday ∧ parseDMY bday.value = some bd ∧
      nextOccurrence bd today = some occ ∧ 0 ≤ daysUntil occ today ∧
      daysUntil occ today ≤ 7 ∧ e.name = r.name.value ∧ congratDate occ = some e.birthday := by
  cases hb : r.birthday with
  | none => simp [upcomingEntry, hb] at h
  | some bday =>
    cases hp : parseDMY bday.value with
    | none =>
      simp only [upcomingEntry, hb, hp] at h
      exact Option.noConfusion h
    | some bd =>
      cases hno : nextOccurrence bd today with
      | none =>
        simp only [upcomingEntry, hb, hp, hno] at h
        exact Option.noConfusion h
      | some occ =>
        simp only [upcomingEntry, hb, hp, hno] at h
        by_cases hcond : 0 ≤ daysUntil occ today ∧ daysUntil occ today ≤ 7
        · rw [if_pos hcond] at h
          cases hc : congratDate occ with
          | none =>
            simp only [hc] at h
            exact Option.noConfusion h
          | some c =>
            simp only [hc, Option.some.injEq] at h
            subst h
            exact ⟨bday, bd, occ, rfl, hp, hno, hcond.1, hcond.2, rfl, hc⟩
        · rw [if_neg hcond] at h
          simp at h

theorem upcomingEntry_of_cond (today : Date) (r : Record) (bday : Birthday) (bd occ : Date)
    (hb : r.birthday = some bday) (hp : parseDMY bday.value = some bd)
    (hno : nextOccurrence bd today = some occ) (h0 : 0 ≤ daysUntil occ today)
    (h7 : daysUntil occ today ≤ 7) (e? : Option UpcomingEntry)
    (h : upcomingEntry today r = some e?) :
    ∃ c, e? = some ⟨r.name.value, c⟩ := by
  simp only [upcomingEntry, hb, hp, hno, if_pos (And.intro h0 h7)] at h
  cases hc : congratDate occ with
  | none =>
    simp only [hc] at h
    exact Option.noConfusion h
  | some c =>
    simp only [hc, Option.some.injEq] at h
    exact ⟨c, h.symm⟩

theorem upcomingLoop_mem_inv (today : Date) (l : List (String × Record))
    (res : List UpcomingEntry) (h : upcomingLoop today l = some res) :
    ∀ e ∈ res, ∃ pr ∈ l, upcomingEntry today pr.2 = some (some e) := by
  induction l generalizing res with
  | nil =>
    simp only [upcomingLoop, Option.some.injEq] at h
    subst h
    intro e he
    cases he
  | cons pr rest ih =>
    intro e he
    cases hx : upcomingEntry today pr.2 with
    | none =>
      simp only [upcomingLoop, hx] at h
      exact Option.noConfusion h
    | some e0? =>
      cases hr : upcomingLoop today rest with
      | none =>
        simp only [upcomingLoop, hx, hr] at h
        exact Option.noConfusion h
      | some res' =>
        simp only [upcomingLoop, hx, hr, Option.some.injEq] at h
        cases e0? with
        | none =>
          subst h
          obtain ⟨pr', hpr', hE⟩ := ih res' hr e he
          exact ⟨pr', List.mem_cons_of_mem pr hpr', hE⟩
        | some e0 =>
          subst h
          rcases List.mem_cons.mp he with rfl | he'
          · exact ⟨pr, List.mem_cons_self pr rest, hx⟩
          · obtain ⟨pr', hpr', hE⟩ := ih res' hr e he'
            exact ⟨pr', List.mem_cons_of_mem pr hpr', hE⟩

theorem upcomingLoop_entry_of_mem (today : Date) (l : List (String × Record))
    (res : List UpcomingEntry) (h : upcomingLoop today l = some res) :
    ∀ pr ∈ l, ∃ e?, upcomingEntry today pr.2 = some e? ∧ ∀ e, e? = some e → e ∈ res := by
  induction l generalizing res with
  | nil =>
    intro pr hpr
    cases hpr
  | cons hd rest ih =>
    intro pr hpr
    cases hx : upcomingEntry today hd.2 with
    | none =>
      simp only [upcomingLoop, hx] at h
      exact Option.noConfusion h
    | some e0? =>
      cases hr : upcomingLoop today rest with
      | none =>
        simp only [upcomingLoop, hx, hr] at h
        exact Option.noConfusion h
      | some res' =>
        simp only [upcomingLoop, hx, hr, Option.some.injEq] at h
        rcases List.mem_cons.mp hpr with rfl | hpr'
        · refine ⟨e0?, hx, ?_⟩
          intro e he0
          subst he0
          rw [← h]
          exact List.mem_cons_self e res'
        · obtain ⟨e?, hE, hmem⟩ := ih res' hr pr hpr'
          refine ⟨e?, hE, fun e he => ?_⟩
          have hmem' : e ∈ res' := hmem e he
          rw [← h]
          cases e0? with
          | none => exact hmem'
          | some e1 => exact List.mem_cons_of_mem e1 hmem'

/-- C1: when `get_upcoming_birthdays` returns a result list (and record names
are distinct), a record's name appears in the output exactly when the record
has a birthday whose next occurrence — the birthday's month/day in today's
year, advanced to the next year when that date is before today — lies between
0 and 7 days from today inclusive; records without a birthday, and records
whose occurrence is further out, are never included. -/
theorem get_upcoming_birthdays_mem_iff (b : AddressBook) (today : Date)
    (res : List UpcomingEntry)
    (hnd : (b.records.map (fun pr => pr.2.name.value)).Nodup)
    (hok : AddressBook.get_upcoming_birthdays b today = some res) :
    ∀ pr ∈ b.records,
      ((∃ e ∈ res, e.name = pr.2.name.value) ↔
        ∃ bday bd occ, pr.2.birthday = some bday ∧ parseDMY bday.value = some bd ∧
          nextOccurrence bd today = some occ ∧ 0 ≤ daysUntil occ today ∧
          daysUntil occ today ≤ 7) := by
  intro pr hpr
  constructor
  · rintro ⟨e, he, hname⟩
    obtain ⟨pr', hpr', hE⟩ := upcomingLoop_mem_inv today b.records res hok e he
    obtain ⟨bday, bd, occ, hb, hp, hno, h0, h7, hename, _⟩ :=
      upcomingEntry_some_inv today pr'.2 e hE
    have heq : pr' = pr :=
      List.inj_on_of_nodup_map hnd hpr' hpr (by rw [← hename]; exact hname)
    rw [← heq]
    exact ⟨bday, bd, occ, hb, hp, hno, h0, h7⟩
  · rintro ⟨bday, bd, occ, hb, hp, hno, h0, h7⟩
    obtain ⟨e?, hE, hmem⟩ := upcomingLoop_entry_of_mem today b.records res hok pr hpr
    obtain ⟨c, hc⟩ := upcomingEntry_of_cond today pr.2 bday bd occ hb hp hno h0 h7 e? hE
    subst hc
    exact ⟨⟨pr.2.name.value, c⟩, hmem _ rfl, rfl⟩

theorem congratDate_cases (d c : Date) (h : congratDate d = some c) :
    (d.weekday < 5 ∧ c = d) ∨ (d.weekday = 5 ∧ c = addDays d 2) ∨
      (d.weekday = 6 ∧ c = addDays d 1) := by
  simp only [congratDate] at h
  by_cases hw : d.weekday ≥ 5
  · rw [if_pos hw] at h
    have hlt : d.weekday < 7 := by
      rw [Date.weekday]
      exact Nat.mod_lt _ (by norm_num)
    simp only [addDaysChecked] at h
    have hcase : d.weekday = 5 ∨ d.weekday = 6 := by omega
    rcases hcase with h5 | h6
    · rw [h5] at h
      by_cases hy : (addDays d (7 - 5)).year ≤ 9999
      · rw [if_pos hy, Option.some.injEq] at h
        exact Or.inr (Or.inl ⟨h5, h.symm⟩)
      · rw [if_neg hy] at h
        exact Option.noConfusion h
    · rw [h6] at h
      by_cases hy : (addDays d (7 - 6)).year ≤ 9999
      · rw [if_pos hy, Option.some.injEq] at h
        exact Or.inr (Or.inr ⟨h6, h.symm⟩)
      · rw [if_neg hy] at h
        exact Option.noConfusion h
  · rw [if_neg hw, Option.some.injEq] at h
    exact Or.inl ⟨by omega, h.symm⟩

/-- C2: every entry of a `get_upcoming_birthdays` result carries the computed
birthday occurrence as its congratulation date when that occurrence falls on
Monday through Friday (weekday < 5), and the occurrence shifted forward to the
following Monday when it falls on a weekend: by exactly 2 days for a Saturday
(weekday 5) and exactly 1 day for a Sunday (weekday 6). -/
theorem upcoming_congrat_weekend_shift (b : AddressBook) (today : Date)
    (res : List UpcomingEntry)
    (hok : AddressBook.get_upcoming_birthdays b today = some res) :
    ∀ e ∈ res, ∃ pr ∈ b.records, ∃ bday bd occ,
      pr.2.birthday = some bday ∧ parseDMY bday.value = some bd ∧
        nextOccurrence bd today = some occ ∧ e.name = pr.2.name.value ∧
        ((occ.weekday < 5 ∧ e.birthday = occ) ∨
          (occ.weekday = 5 ∧ e.birthday = addDays occ 2) ∨
          (occ.weekday = 6 ∧ e.birthday = addDays occ 1)) := by
  intro e he
  obtain ⟨pr, hpr, hE⟩ := upcomingLoop_mem_inv today b.records res hok e he
  obtain ⟨bday, bd, occ, hb, hp, hno, h0, h7, hename, hc⟩ :=
    upcomingEntry_some_inv today pr.2 e hE
  exact ⟨pr, hpr, bday, bd, occ, hb, hp, hno, hename, congratDate_cases occ e.birthday hc⟩

/-- The worked example of the spec: `today` = Monday 10.06.2024, with contacts
whose birthdays fall on Wednesday 12.06 (in window, unshifted), Saturday 15.06
(in window, shifted to Monday 17.06) and 20.06 (11 days out, excluded). -/
def exampleToday : Date := ⟨2024, 6, 10⟩

def exampleBook : AddressBook :=
  ⟨[("Alice", { name := ⟨"Alice"⟩, phones := [], birthday := some ⟨"12.06.2024"⟩ }),
    ("Bob", { name := ⟨"Bob"⟩, phones := [], birthday := some ⟨"15.06.2024"⟩ }),
    ("Carol", { name := ⟨"Carol"⟩, phones := [], birthday := some ⟨"20.06.2024"⟩ })]⟩

def exampleResult : List UpcomingEntry :=
  [⟨"Alice", ⟨2024, 6, 12⟩⟩, ⟨"Bob", ⟨2024, 6, 17⟩⟩]

theorem get_upcoming_birthdays_mem_iff_witness :
    ∃ e ∈ exampleResult, e.name = "Bob" :=
  (get_upcoming_birthdays_mem_iff exampleBook exampleToday exampleResult (by decide) (by decide)
      ("Bob", { name := ⟨"Bob"⟩, phones := [], birthday := some ⟨"15.06.2024"⟩ })
      (by decide)).mpr
    ⟨⟨"15.06.2024"⟩, ⟨2024, 6, 15⟩, ⟨2024, 6, 15⟩, rfl, by decide, by decide, by decide,
      by decide⟩

theorem upcoming_congrat_weekend_shift_witness :
    ∃ pr ∈ exampleBook.records, ∃ bday bd occ,
      pr.2.birthday = some bday ∧ parseDMY bday.value = some bd ∧
        nextOccurrence bd exampleToday = some occ ∧
        (⟨"Bob", ⟨2024, 6, 17⟩⟩ : UpcomingEntry).name = pr.2.name.value ∧
        ((occ.weekday < 5 ∧ (⟨"Bob", ⟨2024, 6, 17⟩⟩ : UpcomingEntry).birthday = occ) ∨
          (occ.weekday = 5 ∧
            (⟨"Bob", ⟨2024, 6, 17⟩⟩ : UpcomingEntry).birthday = addDays occ 2) ∨
          (occ.weekday = 6 ∧
            (⟨"Bob", ⟨2024, 6, 17⟩⟩ : UpcomingEntry).birthday = addDays occ 1)) :=
  upcoming_congrat_weekend_shift exampleBook exampleToday exampleResult (by decide)
    ⟨"Bob", ⟨2024, 6, 17⟩⟩ (by decide)

theorem splitDots_ne_nil (l : List Char) : splitDots l ≠ [] := by
  induction l with
  | nil => simp [splitDots]
  | cons c rest ih =>
    simp only [splitDots]
    cases h : splitDots rest with
    | nil => exact absurd h ih
    | cons hd tl =>
      by_cases hc : (c == '.') = true
      · simp [hc]
      · simp [hc]

theorem splitDots_single (l : List Char) : ∀ a, splitDots l = [a] → l = a ∧ '.' ∉ a := by
  induction l with
  | nil =>
    intro a h
    simp only [splitDots] at h
    injection h with h1 h2
    subst h1
    exact ⟨rfl, by simp⟩
  | cons c rest ih =>
    intro a h
    simp only [splitDots] at h
    cases hsr : splitDots rest with
    | nil => exact absurd hsr (splitDots_ne_nil rest)
    | cons hd tl =>
      simp only [hsr] at h
      by_cases hc : (c == '.') = true
      · rw [if_pos hc] at h
        injection h with h1 h2
        exact absurd h2 (by simp)
      · rw [if_neg hc] at h
        injection h with h1 h2
        subst h2
        obtain ⟨hr, hnd⟩ := ih hd hsr
        subst hr
        have hcne : c ≠ '.' := by
          intro hh
          exact hc (beq_iff_eq.mpr hh)
        refine ⟨h1, ?_⟩
        intro hmem
        rw [← h1] at hmem
        rcases List.mem_cons.mp hmem with h' | h'
        · exact hcne h'.symm
        · exact hnd h'

theorem splitDots_pair (l : List Char) : ∀ a b, splitDots l = [a, b] →
    l = a ++ '.' :: b ∧ '.' ∉ a ∧ '.' ∉ b := by
  induction l with
  | nil =>
    intro a b h
    simp only [splitDots] at h
    injection h with h1 h2
    exact absurd h2 (by simp)
  | cons c rest ih =>
    intro a b h
    simp only [splitDots] at h
    cases hsr : splitDots rest with
    | nil => exact absurd hsr (splitDots_ne_nil rest)
    | cons hd tl =>
      simp only [hsr] at h
      by_cases hc : (c == '.') = true
      · rw [if_pos hc] at h
        injection h with h1 h2
        subst h1
        obtain ⟨hr, hnd⟩ := splitDots_single rest b (hsr.trans h2)
        subst hr
        have hceq : c = '.' := beq_iff_eq.mp hc
        subst hceq
        exact ⟨rfl, by simp, hnd⟩
      · rw [if_neg hc] at h
        injection h with h1 h2
        obtain ⟨hr, hnda, hndb⟩ := ih hd b (hsr.trans (by rw [h2]))
        have hcne : c ≠ '.' := by
          intro hh
          exact hc (beq_iff_eq.mpr hh)
        subst hr
        refine ⟨by rw [← h1, List.cons_append], ?_, hndb⟩
        intro hmem
        rw [← h1] at hmem
        rcases List.mem_cons.mp hmem with h' | h'
        · exact hcne h'.symm
        · exact hnda h'

theorem splitDots_triple (l : List Char) : ∀ a b c, splitDots l = [a, b, c] →
    l = a ++ '.' :: (b ++ '.' :: c) ∧ '.' ∉ a ∧ '.' ∉ b ∧ '.' ∉ c := by
  induction l with
  | nil =>
    intro a b c h
    simp only [splitDots] at h
    injection h with h1 h2
    exact absurd h2 (by simp)
  | cons ch rest ih =>
    intro a b c h
    simp only [splitDots] at h
    cases hsr : splitDots rest with
    | nil => exact absurd hsr (splitDots_ne_nil rest)
    | cons hd tl =>
      simp only [hsr] at h
      by_cases hc : (ch == '.') = true
      · rw [if_pos hc] at h
        injection h with h1 h2
        subst h1
        obtain ⟨hr, hndb, hndc⟩ := splitDots_pair rest b c (hsr.trans h2)
        subst hr
        have hceq : ch = '.' := beq_iff_eq.mp hc
        subst hceq
        exact ⟨rfl, by simp, hndb, hndc⟩
      · rw [if_neg hc] at h
        injection h with h1 h2
        obtain ⟨hr, hnda, hndb, hndc⟩ := ih hd b c (hsr.trans (by rw [h2]))
        have hcne : ch ≠ '.' := by
          intro hh
          exact hc (beq_iff_eq.mpr hh)
        subst hr
        refine ⟨by rw [← h1, List.cons_append], ?_, hndb, hndc⟩
        intro hmem
        rw [← h1] at hmem
        rcases List.mem_cons.mp hmem with h' | h'
        · exact hcne h'.symm
        · exact hnda h'

theorem splitDots_no_dot (a : List Char) (h : '.' ∉ a) : splitDots a = [a] := by
  induction a with
  | nil => rfl
  | cons c rest ih =>
    have hc : (c == '.') = false := by
      rw [beq_eq_false_iff_ne]
      intro hh
      exact h (List.mem_cons.mpr (Or.inl hh.symm))
    have hrest : '.' ∉ rest := fun hh => h (List.mem_cons_of_mem c hh)
    simp [splitDots, ih hrest, hc]

theorem splitDots_append_dot (a : List Char) (r : List Char) (h : '.' ∉ a) :
    splitDots (a ++ '.' :: r) = a :: splitDots r := by
  induction a with
  | nil =>
    simp only [List.nil_append, splitDots]
    cases hsr : splitDots r with
    | nil => exact absurd hsr (splitDots_ne_nil r)
    | cons hd tl => simp
  | cons c a' ih =>
    have hc : (c == '.') = false := by
      rw [beq_eq_false_iff_ne]
      intro hh
      exact h (List.mem_cons.mpr (Or.inl hh.symm))
    have ha' : '.' ∉ a' := fun hh => h (List.mem_cons_of_mem c hh)
    simp [splitDots, ih ha', hc]

theorem dayTok_no_dot (d : List Char) (h : dayTok d = true) : '.' ∉ d := by
  intro hmem
  cases d with
  | nil => cases hmem
  | cons c₁ rest =>
    cases rest with
    | nil =>
      rcases List.mem_cons.mp hmem with h₁ | h₁
      · rw [← h₁] at h
        exact absurd h (by decide)
      · cases h₁
    | cons c₂ rest₂ =>
      cases rest₂ with
      | nil =>
        rcases List.mem_cons.mp hmem with h₁ | h₁
        · rw [← h₁] at h
          have e1 : (('.' : Char) == '3') = false := by decide
          have e2 : (('.' : Char) == '1') = false := by decide
          have e3 : (('.' : Char) == '2') = false := by decide
          have e4 : (('.' : Char) == '0') = false := by decide
          simp [dayTok, e1, e2, e3, e4] at h
        · rcases List.mem_cons.mp h₁ with h₂ | h₂
          · rw [← h₂] at h
            have f1 : (('.' : Char) == '0') = false := by decide
            have f2 : (('.' : Char) == '1') = false := by decide
            have f3 : ('.' : Char).isDigit = false := by decide
            simp [dayTok, f1, f2, f3] at h
          · cases h₂
      | cons _ _ => simp [dayTok] at h

theorem monthTok_no_dot (m : List Char) (h : monthTok m = true) : '.' ∉ m := by
  intro hmem
  cases m with
  | nil => cases hmem
  | cons c₁ rest =>
    cases rest with
    | nil =>
      rcases List.mem_cons.mp hmem with h₁ | h₁
      · rw [← h₁] at h
        exact absurd h (by decide)
      · cases h₁
    | cons c₂ rest₂ =>
      cases rest₂ with
      | nil =>
        rcases List.mem_cons.mp hmem with h₁ | h₁
        · rw [← h₁] at h
          have e1 : (('.' : Char) == '1') = false := by decide
          have e2 : (('.' : Char) == '0') = false := by decide
          simp [monthTok, e1, e2] at h
        · rcases List.mem_cons.mp h₁ with h₂ | h₂
          · rw [← h₂] at h
            have f1 : (('.' : Char) == '0') = false := by decide
            have f2 : (('.' : Char) == '1') = false := by decide
            have f3 : (('.' : Char) == '2') = false := by decide
            have f4 : ('.' : Char).isDigit = false := by decide
            simp [monthTok, f1, f2, f3, f4] at h
          · cases h₂
      | cons _ _ => simp [monthTok] at h

theorem yearTok_no_dot (y : List Char) (h : yearTok y = true) : '.' ∉ y := by
  intro hmem
  rw [yearTok, Bool.and_eq_true] at h
  have hdig : ('.' : Char).isDigit = true := List.all_eq_true.mp h.2 '.' hmem
  exact absurd hdig (by decide)

/-- C4 amended: the `Birthday` constructor succeeds exactly on the strings
`D.M.Y` where the day group is one or two digits in the `strptime` day
language (values 1-31, a leading zero only before 1-9, "00" excluded), the
month group likewise (values 1-12), the year group is exactly four digits, and
the triple forms a real Gregorian calendar date with year at least 1 — i.e.
single-digit day or month (e.g. `5.06.2024`) is also accepted, while impossible
dates such as `31.02.2024` and `00.01.2020` are still rejected. -/
theorem birthday_init_iff (s : String) :
    (Birthday.init s).isSome = true ↔
      ∃ d m y : List Char,
        s.data = d ++ '.' :: (m ++ '.' :: y) ∧ dayTok d = true ∧ monthTok m = true ∧
          yearTok y = true ∧ 1 ≤ tokVal y ∧ tokVal y ≤ 9999 ∧ 1 ≤ tokVal m ∧
          tokVal m ≤ 12 ∧ 1 ≤ tokVal d ∧ tokVal d ≤ daysInMonth (tokVal m) (tokVal y) := by
  constructor
  · intro h
    cases hp : parseDMY s with
    | none =>
      simp only [Birthday.init, hp, Option.isSome_none] at h
      cases h
    | some dd =>
      simp only [parseDMY] at hp
      cases hs : splitDots s.data with
      | nil => exact absurd hs (splitDots_ne_nil _)
      | cons d rest =>
        cases rest with
        | nil =>
          simp only [hs] at hp
          exact Option.noConfusion hp
        | cons m rest₂ =>
          cases rest₂ with
          | nil =>
            simp only [hs] at hp
            exact Option.noConfusion hp
          | cons y rest₃ =>
            cases rest₃ with
            | cons _ _ =>
              simp only [hs] at hp
              exact Option.noConfusion hp
            | nil =>
              simp only [hs] at hp
              by_cases hg : (dayTok d && monthTok m && yearTok y) = true
              · rw [if_pos hg] at hp
                by_cases hcond : 1 ≤ tokVal y ∧ tokVal y ≤ 9999 ∧ 1 ≤ tokVal m ∧
                    tokVal m ≤ 12 ∧ 1 ≤ tokVal d ∧
                    tokVal d ≤ daysInMonth (tokVal m) (tokVal y)
                · obtain ⟨hsplit, _, _, _⟩ := splitDots_triple s.data d m y hs
                  rw [Bool.and_eq_true, Bool.and_eq_true] at hg
                  exact ⟨d, m, y, hsplit, hg.1.1, hg.1.2, hg.2, hcond.1, hcond.2.1,
                    hcond.2.2.1, hcond.2.2.2.1, hcond.2.2.2.2.1, hcond.2.2.2.2.2⟩
                · rw [mkDatetime, if_neg hcond] at hp
                  exact Option.noConfusion hp
              · rw [if_neg hg] at hp
                exact Option.noConfusion hp
  · rintro ⟨d, m, y, hsplit, hd, hm, hy, h1, h2, h3, h4, h5, h6⟩
    have hnd : '.' ∉ d := dayTok_no_dot d hd
    have hnm : '.' ∉ m := monthTok_no_dot m hm
    have hny : '.' ∉ y := yearTok_no_dot y hy
    have hs : splitDots s.data = [d, m, y] := by
      rw [hsplit, splitDots_append_dot d _ hnd, splitDots_append_dot m _ hnm,
        splitDots_no_dot y hny]
    have hp : parseDMY s = some ⟨tokVal y, tokVal m, tokVal d⟩ := by
      simp only [parseDMY, hs, hd, hm, hy, Bool.and_self, if_pos]
      rw [mkDatetime, if_pos ⟨h1, h2, h3, h4, h5, h6⟩]
    simp only [Birthday.init, hp, Option.isSome_some]

/-- C4 counterexample: `strptime`'s `%d` also matches a single digit, so the
code accepts `5.06.2024`, which is not in the claim's strict two-digit-day
`DD.MM.YYYY` shape. -/
theorem birthday_accepts_one_digit_day :
    (Birthday.init "5.06.2024").isSome = true ∧ strictDDMMYYYY "5.06.2024" = false :=
  ⟨rfl, rfl⟩

theorem birthday_init_iff_witness :
    (Birthday.init "12.06.2024").isSome = true :=
  (birthday_init_iff "12.06.2024").mpr
    ⟨['1', '2'], ['0', '6'], ['2', '0', '2', '4'], by decide, by decide, by decide, by decide,
      by decide, by decide, by decide, by decide, by decide, by decide⟩
